import Mathlib

/-!
Verification of the nphysics rigid-body engine core against its
natural-language specification.

The development shallowly embeds the Rust sources:
  * `src/detection/activation_manager.rs`  (island-based sleep/wake manager)
  * `src/detection/joint/joint_manager.rs` (joint table and reverse index)
  * `src/resolution/constraint/accumulated_impulse_solver.rs` (PGS solver front end)
  * `src/integration/translational_ccd_motion_clamping.rs` (translational CCD)

Scalars (`Scalar`, an f32/f64 in the source) are modelled as rationals `ℚ`;
the properties below are order/field algebraic, not about rounding.  Vectors
(`Vect`, `Point`) are modelled as pairs `ℚ × ℚ` (the 2D instantiation of the
dimension-generic source; no claim depends on the dimension).  Shared
`Arc<RWLock<RigidBody>>` handles are modelled as natural-number addresses
into an explicit heap `ℕ → Option RigidBody` where aliasing matters, and as
plain `RigidBody` values where a pass only reads the bodies.
-/

namespace NPhys

/-- squared norm of a 2D vector, `na::sqnorm`. -/
def sqnormV (v : ℚ × ℚ) : ℚ := v.1 * v.1 + v.2 * v.2

/-- `object::ActivationState`.  Modelled from the spec: the `object` module is
not under `src/`; the spec gives the variants
`{Active(energy: scalar), Inactive, Deleted}`. -/
inductive ActivationState where
  | Active (energy : ℚ)
  | Inactive
  | Deleted
deriving DecidableEq

/-- `ActivationState::energy()`.  Only ever called on `Active` states by the
source; on the other variants we return `0`. -/
def ActivationState.energy : ActivationState → ℚ
  | .Active e => e
  | _ => 0

/-- `object::RigidBody`.  Modelled from the spec: the `object` module is not
under `src/`; the spec lists the essential attributes (movability flag,
activation state, optional deactivation energy threshold, linear and angular
velocity, transform = position + orientation, transient solver index).  `uid`
models the stable address of the body's `Arc` handle. -/
structure RigidBody where
  uid       : ℕ
  canMove   : Bool
  state     : ActivationState
  threshold : Option ℚ
  linVel    : ℚ × ℚ
  angVel    : ℚ × ℚ
  index     : ℤ
  pos       : ℚ × ℚ
  rot       : ℚ
deriving DecidableEq

/-- `RigidBody::is_active()`: the activation state is `Active`. -/
def RigidBody.isActive (b : RigidBody) : Bool :=
  match b.state with
  | .Active _ => true
  | _ => false

/-- `RigidBody::activate(energy)`: sets the state to `Active(energy)`
(spec: bodies are "awakened by setting its energy"). -/
def RigidBody.activate (e : ℚ) (b : RigidBody) : RigidBody :=
  { b with state := .Active e }

/-- `RigidBody::deactivate()`: sets the state to `Inactive`
(spec: "mark Inactive"). -/
def RigidBody.deactivate (b : RigidBody) : RigidBody :=
  { b with state := .Inactive }

/-- `RigidBody::set_index`. -/
def RigidBody.setIndex (i : ℤ) (b : RigidBody) : RigidBody :=
  { b with index := i }

/-- Energy of a body's activation state. -/
def RigidBody.energy (b : RigidBody) : ℚ := b.state.energy

/-
## Activation manager: `src/detection/activation_manager.rs`
-/

/-- `ActivationManager` persistent fields.  The per-update scratch vectors
`ufind` and `can_deactivate` are rebuilt on every `update` and are modelled
inside the update functions below. -/
structure ActivationManager where
  mixFactor  : ℚ
  toActivate : List ℕ
deriving DecidableEq

/-- `ActivationManager::new(mix_factor)` (lines 31–40).  The constructor runs
`assert!(mix_factor >= na::zero(), "The energy mixing factor must be between
0.0 and 1.0.")`; a failed assertion (panic) is modelled as `none`. -/
def ActivationManager.new (mixFactor : ℚ) : Option ActivationManager :=
  if mixFactor ≥ 0 then some { mixFactor := mixFactor, toActivate := [] } else none

/-- `ActivationManager::update_energy` (lines 50–62): for a body with a
deactivation threshold, mix the old energy with the current squared
velocities and clamp to four times the threshold; a body without a threshold
is untouched. -/
def updateEnergy (m : ℚ) (b : RigidBody) : RigidBody :=
  match b.threshold with
  | some threshold =>
      b.activate (min ((1 - m) * b.state.energy + m * (sqnormV b.linVel + sqnormV b.angVel))
                      (threshold * 4))
  | none => b

/-- One step of the energy-update loop of `ActivationManager::update`
(lines 74–83): update the energy of active bodies, then `set_index(i)`. -/
def stepEnergy (m : ℚ) (i : ℕ) (b : RigidBody) : RigidBody :=
  (if b.isActive then updateEnergy m b else b).setIndex (i : ℤ)

/-- The energy-update loop of `ActivationManager::update` (lines 74–83),
iterating over the bodies in map order with their enumeration index. -/
def energyPhase (m : ℚ) : ℕ → List RigidBody → List RigidBody
  | _, [] => []
  | i, b :: bs => stepEnergy m i b :: energyPhase m (i + 1) bs

/-- Application of one pending activation in `ActivationManager::update`
(lines 90–97): a pending body with a threshold is activated with energy
`2 · threshold`; a body without a threshold is untouched. -/
def applyPendingActivate (b : RigidBody) : RigidBody :=
  match b.threshold with
  | some threshold => b.activate (threshold * 2)
  | none => b

/-- The pending-activation loop of `ActivationManager::update` (lines 90–99):
each address in `to_activate` is written through its shared handle, i.e. the
matching entries of the bodies list are updated. -/
def activatePending (toActivate : List ℕ) (bodies : List RigidBody) : List RigidBody :=
  toActivate.foldl
    (fun bs u => bs.map (fun b => if b.uid = u then applyPendingActivate b else b))
    bodies

/-- One step of the deactivation-vote loop of `ActivationManager::update`
(lines 164–175): `can_deactivate[root i]` becomes
`can_deactivate[root i] && energy < threshold` when body `i` has a threshold,
and `false` when it has none. -/
def voteStep (root : ℕ → ℕ) (i : ℕ) (can : ℕ → Bool) (b : RigidBody) : ℕ → Bool :=
  fun r =>
    if r = root i then
      match b.threshold with
      | some threshold => can (root i) && decide (b.energy < threshold)
      | none => false
    else can r

/-- The deactivation-vote loop of `ActivationManager::update` (lines 164–175),
iterating over the bodies in map order.  `root i` models
`union_find::find(i, ufind)`, stable once the unions are done. -/
def votePhase (root : ℕ → ℕ) : ℕ → (ℕ → Bool) → List RigidBody → (ℕ → Bool)
  | _, can, [] => can
  | i, can, b :: bs => votePhase root (i + 1) (voteStep root i can b) bs

/-- One step of the activate/deactivate-commit loop of
`ActivationManager::update` (lines 178–193). -/
def commitStep (can : ℕ → Bool) (root : ℕ → ℕ) (i : ℕ) (b : RigidBody) : RigidBody :=
  if can (root i) then b.deactivate
  else if !b.isActive && b.canMove then
    match b.threshold with
    | some threshold => b.activate (threshold * 2)
    | none => b
  else b

/-- The activate/deactivate-commit loop of `ActivationManager::update`
(lines 178–193), iterating over the bodies in map order. -/
def commitPhase (can : ℕ → Bool) (root : ℕ → ℕ) : ℕ → List RigidBody → List RigidBody
  | _, [] => []
  | i, b :: bs => commitStep can root i b :: commitPhase can root (i + 1) bs

/-- `ActivationManager::update` (lines 65–194) acting on the bodies list:
energy update + index assignment, pending activations, then island
vote and commit.  `root` models `union_find::find` on the union-find forest
after the unions (`utils::union_find` is not under `src/`; the spec describes
it as path-compression + union-by-rank, so after all unions `find` is a fixed
root assignment, which we pass as a function — the theorems hold for every
root assignment, in particular the one the unions produce).  The
`can_deactivate` scratch vector is initialised to all-`true` (lines 122–124)
before the vote. -/
def amUpdate (m : ℚ) (toActivate : List ℕ) (root : ℕ → ℕ)
    (bodies : List RigidBody) : List RigidBody :=
  let bs1 := energyPhase m 0 bodies
  let bs2 := activatePending toActivate bs1
  commitPhase (votePhase root 0 (fun _ => true) bs2) root 0 bs2

/-
## Constraints and joints: `src/detection/constraint.rs`, `joint/fixed.rs`
-/

/-- `ncollide::geometry::Contact` (external collaborator): world-space points,
normal, penetration depth. -/
structure Contact where
  world1 : ℚ × ℚ
  world2 : ℚ × ℚ
  normal : ℚ × ℚ
  depth  : ℚ
deriving DecidableEq

/-- `detection::joint::anchor::Anchor<P>`: an optional attached body (an
address; `None` pins the anchor to the world frame) and a position payload. -/
structure Anchor (P : Type) where
  body     : Option ℕ
  position : P
deriving DecidableEq

/-- `detection::joint::ball_in_socket::BallInSocket`: two point anchors and
the `up_to_date` edit flag.  `uid` models the joint's stable `Arc` address
(the joint-table key). -/
structure BallInSocket where
  uid      : ℕ
  upToDate : Bool
  anchor1  : Anchor (ℚ × ℚ)
  anchor2  : Anchor (ℚ × ℚ)
deriving DecidableEq

/-- `detection::joint::fixed::Fixed` (src/detection/joint/fixed.rs): two
transform anchors and the `up_to_date` edit flag.  The anchor transform is
modelled by its translation (its rotation part is used by no claim). -/
structure Fixed where
  uid      : ℕ
  upToDate : Bool
  anchor1  : Anchor (ℚ × ℚ)
  anchor2  : Anchor (ℚ × ℚ)
deriving DecidableEq

/-- `detection::constraint::Constraint`: a contact between two bodies, a
ball-in-socket joint, or a fixed joint.  The two `RBRB` bodies are addresses
of shared handles. -/
inductive Constraint where
  | RBRB (b1 b2 : ℕ) (c : Contact)
  | BallInSocketC (j : BallInSocket)
  | FixedC (f : Fixed)
deriving DecidableEq

/-- The heap of shared rigid-body handles: address → body. -/
def Heap : Type := ℕ → Option RigidBody

/-
## Island construction: `ActivationManager::update`, lines 126–158
-/

/-- `make_union` (lines 127–134): reads the two handles and, when both bodies
can move, performs `union(rb1.index, rb2.index)` on the union-find forest.
We record the performed union as the pair of body addresses (the energy phase
has set `index` to each body's position in the bodies map, so addresses and
indices identify bodies one-to-one). -/
def makeUnion (h : Heap) (u1 u2 : ℕ) : Option (ℕ × ℕ) :=
  match h u1, h u2 with
  | some b1, some b2 => if b1.canMove && b2.canMove then some (u1, u2) else none
  | _, _ => none

/-- The union performed for one joint-table entry in
`ActivationManager::update` (lines 142–158): an `RBRB` entry calls
`make_union` directly; a `BallInSocket` or `Fixed` entry calls it only when
both anchors hold a body. -/
def jointEdge (h : Heap) : Constraint → Option (ℕ × ℕ)
  | .RBRB u1 u2 _ => makeUnion h u1 u2
  | .BallInSocketC j =>
      match j.anchor1.body, j.anchor2.body with
      | some u1, some u2 => makeUnion h u1 u2
      | _, _ => none
  | .FixedC f =>
      match f.anchor1.body, f.anchor2.body with
      | some u1, some u2 => makeUnion h u1 u2
      | _, _ => none

/-- The union edges produced by the island-construction phase of
`ActivationManager::update` (lines 136–158): one `make_union` per contact
pair with a nonzero `num_colls`, plus the per-entry unions over the joint
table. -/
def islandEdges (h : Heap) (pairs : List (ℕ × ℕ × ℕ)) (jlist : List Constraint) :
    List (ℕ × ℕ) :=
  pairs.filterMap (fun p => if p.2.2 ≠ 0 then makeUnion h p.1 p.2.1 else none) ++
  jlist.filterMap (jointEdge h)

/-- Whether a constraint is a contact entry. -/
def Constraint.isRBRB : Constraint → Bool
  | .RBRB _ _ _ => true
  | _ => false

/-
## Joint manager: `src/detection/joint/joint_manager.rs`

The joint table `joints` and the reverse index `body2joints` are
`ncollide::utils::data::hash_map::HashMap` values (an external collaborator);
they are modelled as association lists in insertion order, with the ncollide
semantics: `insert` replaces the value and reports whether the key was new,
`remove`/`get_and_remove` delete the entry and report the old presence/value,
`find_or_insert_lazy` inserts a fresh value for an absent key.
-/

/-- Association-list lookup (`HashMap::find`). -/
def alFind {α : Type} (k : ℕ) (l : List (ℕ × α)) : Option α :=
  (l.find? (fun p => p.1 = k)).map (fun p => p.2)

/-- Association-list insertion (`HashMap::insert`): replaces the value if the
key is present (returning `false`), appends a new entry otherwise
(returning `true`). -/
def alInsert {α : Type} (k : ℕ) (v : α) (l : List (ℕ × α)) : List (ℕ × α) × Bool :=
  if (l.find? (fun p => p.1 = k)).isSome then
    (l.map (fun p => if p.1 = k then (k, v) else p), false)
  else (l ++ [(k, v)], true)

/-- Association-list removal (`HashMap::remove`): deletes the entry for the
key and reports whether it was present. -/
def alRemove {α : Type} (k : ℕ) (l : List (ℕ × α)) : List (ℕ × α) × Bool :=
  (l.filter (fun p => p.1 ≠ k), (l.find? (fun p => p.1 = k)).isSome)

/-- `HashMap::get_and_remove`: deletes the entry for the key and returns its
old value. -/
def alGetAndRemove {α : Type} (k : ℕ) (l : List (ℕ × α)) :
    Option α × List (ℕ × α) :=
  (alFind k l, l.filter (fun p => p.1 ≠ k))

/-- Update the value stored at a present key (`HashMap::find_mut` followed by
a mutation); absent keys are untouched. -/
def alMapAt {α : Type} (k : ℕ) (f : α → α) (l : List (ℕ × α)) : List (ℕ × α) :=
  l.map (fun p => if p.1 = k then (k, f p.2) else p)

/-- `find_or_insert_lazy(k, || Some(Vec::new()))` followed by pushing `c` onto
the stored vector, as done by `add_ball_in_socket`/`add_fixed`. -/
def alPush (k : ℕ) (c : Constraint) (l : List (ℕ × List Constraint)) :
    List (ℕ × List Constraint) :=
  if (l.find? (fun p => p.1 = k)).isSome then alMapAt k (fun js => js ++ [c]) l
  else l ++ [(k, [c])]

/-- The joint-identity key used by `remove_joint_for_body`'s `retain` closure
(lines 130–141): the joint's address, with `ptr::null()` (that is, `0`) for a
contact entry. -/
def jointKeyOf : Constraint → ℕ
  | .RBRB _ _ _ => 0
  | .BallInSocketC j => j.uid
  | .FixedC f => f.uid

/-- The joint manager's state together with the activation manager's pending
list that its operations push into: `joints` is the joint table,
`body2joints` the body → joints reverse index, `toActivate` the activation
manager's `to_activate` list. -/
structure JMState where
  joints      : List (ℕ × Constraint)
  body2joints : List (ℕ × List Constraint)
  toActivate  : List ℕ
deriving DecidableEq

/-- `ActivationManager::will_activate` (activation_manager.rs lines 44–48):
push the body when it can move and is not active. -/
def willActivate (h : Heap) (u : ℕ) (pending : List ℕ) : List ℕ :=
  match h u with
  | some b => if b.canMove && !b.isActive then pending ++ [u] else pending
  | none => pending

/-- The per-anchor work of `add_ball_in_socket`/`add_fixed` when the insertion
was new (lines 49–67 and 86–104): for a present anchor body, schedule it for
activation and append the joint to its reverse list. -/
def anchorAdd (h : Heap) (c : Constraint) (body : Option ℕ) (st : JMState) : JMState :=
  match body with
  | some u =>
      { st with
        toActivate := willActivate h u st.toActivate,
        body2joints := alPush u c st.body2joints }
  | none => st

/-- `JointManager::add_ball_in_socket` (lines 44–69). -/
def addBallInSocket (h : Heap) (j : BallInSocket) (st : JMState) : JMState :=
  let ins := alInsert j.uid (.BallInSocketC j) st.joints
  if ins.2 then
    anchorAdd h (.BallInSocketC j) j.anchor2.body
      (anchorAdd h (.BallInSocketC j) j.anchor1.body { st with joints := ins.1 })
  else { st with joints := ins.1 }

/-- `JointManager::add_fixed` (lines 84–106). -/
def addFixed (h : Heap) (f : Fixed) (st : JMState) : JMState :=
  let ins := alInsert f.uid (.FixedC f) st.joints
  if ins.2 then
    anchorAdd h (.FixedC f) f.anchor2.body
      (anchorAdd h (.FixedC f) f.anchor1.body { st with joints := ins.1 })
  else { st with joints := ins.1 }

/-- `JointManager::remove_ball_in_socket` (lines 74–79): remove the joint
from the joint table and, if it was present, schedule both present anchor
bodies for activation.  The reverse index is not touched. -/
def removeBallInSocket (h : Heap) (j : BallInSocket) (st : JMState) : JMState :=
  let rem := alRemove j.uid st.joints
  if rem.2 then
    let p1 := match j.anchor1.body with
      | some u => willActivate h u st.toActivate
      | none => st.toActivate
    let p2 := match j.anchor2.body with
      | some u => willActivate h u p1
      | none => p1
    { st with joints := rem.1, toActivate := p2 }
  else { st with joints := rem.1 }

/-- `JointManager::remove_joint_for_body` (lines 120–148): for a present
body, schedule it for activation and drop from its reverse list every entry
whose joint key equals `key`. -/
def removeJointForBody (h : Heap) (key : ℕ) (body : Option ℕ) (st : JMState) : JMState :=
  match body with
  | some u =>
      { st with
        toActivate := willActivate h u st.toActivate,
        body2joints := alMapAt u (fun js => js.filter (fun c => jointKeyOf c ≠ key)) st.body2joints }
  | none => st

/-- The `do_remove` helper of `JointManager::remove` (lines 156–172): when
the first anchor holds a body, prune the reverse list of the *other* anchor
of the joint (the anchor not equal to the removed body `b`); when the first
anchor is absent, nothing happens. -/
def doRemoveForBody (h : Heap) (key : ℕ) (a1 a2 : Option ℕ) (b : ℕ) (st : JMState) : JMState :=
  match a1 with
  | some u1 =>
      if u1 = b then removeJointForBody h key a2 st
      else removeJointForBody h key a1 st
  | none => st

/-- Dispatch of `JointManager::remove` on a reverse-list entry
(lines 174–178); an `RBRB` entry panics, modelled as `none`. -/
def removeDispatch (h : Heap) (b : ℕ) (st : JMState) : Constraint → Option JMState
  | .BallInSocketC j => some (doRemoveForBody h j.uid j.anchor1.body j.anchor2.body b st)
  | .FixedC f => some (doRemoveForBody h f.uid f.anchor1.body f.anchor2.body b st)
  | .RBRB _ _ _ => none

/-- The loop of `JointManager::remove` over the removed reverse list. -/
def removeLoop (h : Heap) (b : ℕ) : List Constraint → JMState → Option JMState
  | [], st => some st
  | c :: cs, st =>
      match removeDispatch h b st c with
      | some st1 => removeLoop h b cs st1
      | none => none

/-- `JointManager::remove` (lines 153–181), the bulk removal of every joint
attached to a body: take (and delete) the body's reverse list and run
`do_remove` on each of its entries.  The joint table `joints` is never
written. -/
def removeBodyJM (h : Heap) (b : ℕ) (st : JMState) : Option JMState :=
  match alGetAndRemove b st.body2joints with
  | (some js, l) => removeLoop h b js { st with body2joints := l }
  | (none, l) => some { st with body2joints := l }

/-- `JointManager::interferences` (lines 225–229): clone every joint-table
entry into the constraint vector. -/
def interferences (st : JMState) : List Constraint :=
  st.joints.map (fun p => p.2)

/-
## Accumulated-impulse solver front end:
## `src/resolution/constraint/accumulated_impulse_solver.rs`
-/

/-- The body addresses a constraint mentions, in the order `solve` visits
them (lines 292–331 and 351–384): contact body `a` then `b`; joint anchor 1
then anchor 2, skipping absent anchors. -/
def mentionedC : Constraint → List ℕ
  | .RBRB a b _ => [a, b]
  | .BallInSocketC j => j.anchor1.body.toList ++ j.anchor2.body.toList
  | .FixedC f => f.anchor1.body.toList ++ f.anchor2.body.toList

/-- All body addresses mentioned by a constraint slice, in visit order. -/
def mentionedAll (cs : List Constraint) : List ℕ :=
  (cs.map mentionedC).flatten

/-- Write the `index` field of the body stored at address `u`
(`b.write().set_index(v)` through a shared handle). -/
def hSetIndex (u : ℕ) (v : ℤ) (h : Heap) : Heap :=
  fun x => if x = u then (h x).map (fun b => b.setIndex v) else h x

/-- The first indexing pass of `solve` (lines 292–331): set `index := -2` on
every body mentioned by any constraint. -/
def firstPassList : List ℕ → Heap → Heap
  | [], h => h
  | u :: us, h => firstPassList us (hSetIndex u (-2) h)

/-- First indexing pass over a constraint slice. -/
def firstPass (cs : List Constraint) (h : Heap) : Heap :=
  firstPassList (mentionedAll cs) h

/-- The state threaded by the second indexing pass: the heap, the dense list
`bodies` of movable constrained bodies (as addresses of the pushed handles),
and the running counter `id`. -/
structure IndexState where
  heap   : Heap
  bodies : List ℕ
  nextId : ℤ

/-- `set_body_index` (lines 335–347): on first sight (`index == -2`) a
movable body receives the next dense index and is recorded in the dense body
list; an immovable body receives `-1`. -/
def setBodyIndex (u : ℕ) (s : IndexState) : IndexState :=
  match s.heap u with
  | none => s
  | some b =>
      if b.index = -2 then
        if b.canMove then
          { heap := hSetIndex u s.nextId s.heap,
            bodies := s.bodies ++ [u],
            nextId := s.nextId + 1 }
        else { s with heap := hSetIndex u (-1) s.heap }
      else s

/-- The second indexing pass of `solve` (lines 351–384) as a fold of
`set_body_index` over the mentioned addresses in visit order. -/
def secondPassList : List ℕ → IndexState → IndexState
  | [], s => s
  | u :: us, s => secondPassList us (setBodyIndex u s)

/-- Second indexing pass over a constraint slice, starting from an empty
dense list and counter `0` (lines 333, 349–384). -/
def secondPass (cs : List Constraint) (h : Heap) : IndexState :=
  secondPassList (mentionedAll cs) { heap := h, bodies := [], nextId := 0 }

/-- The `joints` vector collected by the second pass (lines 350–384): the
positions of the joint constraints in the slice. -/
def jointIndices (cs : List Constraint) : List ℕ :=
  (cs.enum.filterMap (fun p =>
    match p.2 with
    | .RBRB _ _ _ => none
    | _ => some p.1))

/-- `resolution::constraint::impulse_cache::ImpulseCache`.  Modelled from the
spec: `impulse_cache.rs` is not under `src/`; the spec describes a mapping
from a contact fingerprint `(bodyA-id, bodyB-id, contact center)` to
`(constraint-index, impulse-storage-offset)` with two generations (current,
previous) rotated by `swap()`, plus a packed vector of impulse magnitudes
(the spatial quantization factor of the center is an implementation tuning
knob and is left as the identity here). -/
structure ImpulseCache where
  cur      : List ((ℕ × ℕ × (ℚ × ℚ)) × (ℕ × ℕ))
  prev     : List ((ℕ × ℕ × (ℚ × ℚ)) × (ℕ × ℕ))
  impulses : List ℚ

/-- Modelled from the spec: `ImpulseCache::insert(i, a, b, center)` records
the fingerprint of contact `i` in the current generation, warm-starting its
impulse-storage offset from the previous generation when the fingerprint is
found there (and `0`, the start of the packed vector, otherwise). -/
def ImpulseCache.insert (i a b : ℕ) (center : ℚ × ℚ) (c : ImpulseCache) : ImpulseCache :=
  let off := match c.prev.find? (fun e => e.1 = (a, b, center)) with
    | some e => e.2.2
    | none => 0
  { c with cur := c.cur ++ [((a, b, center), (i, off))] }

/-- Modelled from the spec: `ImpulseCache::swap()` rotates the two
generations (the filled current generation becomes the previous one, read by
the next tick) and resets the packed storage. -/
def ImpulseCache.swap (c : ImpulseCache) : ImpulseCache :=
  { cur := [], prev := c.cur, impulses := [] }

/-- The solver-visible state: the shared bodies and the impulse cache.  The
equation buffers and `mj_lambda` are per-call scratch resized inside
`do_solve`. -/
structure SolveSt where
  heap  : Heap
  cache : ImpulseCache

/-- `na::center` of the two contact points. -/
def contactCenter (c : Contact) : ℚ × ℚ :=
  ((c.world1.1 + c.world2.1) / 2, (c.world1.2 + c.world2.2) / 2)

/-- The cache-association phase of `solve` (lines 269–284): insert the
fingerprint of every `RBRB` constraint into the impulse cache; joints are
skipped. -/
def cacheAssocPhase (cs : List Constraint) (st : SolveSt) : SolveSt :=
  cs.enum.foldl
    (fun acc p =>
      match p.2 with
      | .RBRB a b c => { acc with cache := acc.cache.insert p.1 a b (contactCenter c) }
      | _ => acc)
    st

/-- `AccumulatedImpulseSolver::solve` (lines 261–389).  On a non-empty
constraint slice: associate contacts with the impulse cache, run the two
indexing passes, call `do_solve`, and rotate the impulse cache; on an empty
slice nothing runs.  `do_solve` (lines 91–257) builds and solves the contact
and joint equations through `projected_gauss_seidel_solver`,
`contact_equation`, `ball_in_socket_equation`, `fixed_equation` and the
`ImpulseCache` internals, none of which are under `src/`; it is therefore
passed as an arbitrary state transformer `doSolve (dt) (constraints)
(joint indices) (dense bodies) (state)`, and the theorems below hold for
every instantiation. -/
def solverSolve
    (doSolve : ℚ → List Constraint → List ℕ → List ℕ → SolveSt → SolveSt)
    (dt : ℚ) (cs : List Constraint) (st : SolveSt) : SolveSt :=
  if cs.length ≠ 0 then
    let st1 := cacheAssocPhase cs st
    let is := secondPassList (mentionedAll cs)
      { heap := firstPass cs st1.heap, bodies := [], nextId := 0 }
    let st2 := doSolve dt cs (jointIndices cs) is.bodies { st1 with heap := is.heap }
    { st2 with cache := st2.cache.swap }
  else st

/-
## Translational CCD: `src/integration/translational_ccd_motion_clamping.rs`
-/

/-- `CCDBody` (lines 15–31): the registered handle's squared motion
threshold, last observed translation, and the zero-TOI acceptance flag. -/
structure CCDBody where
  sqthreshold : ℚ
  lastPos     : ℚ × ℚ
  acceptZero  : Bool
deriving DecidableEq

/-- Vector subtraction. -/
def subV (a b : ℚ × ℚ) : ℚ × ℚ := (a.1 - b.1, a.2 - b.2)

/-- Vector addition. -/
def addV (a b : ℚ × ℚ) : ℚ × ℚ := (a.1 + b.1, a.2 + b.2)

/-- Scalar multiple of a vector. -/
def smulV (s : ℚ) (a : ℚ × ℚ) : ℚ × ℚ := (s * a.1, s * a.2)

/-- The minimum-TOI search of `TranslationalCCDMotionClamping::update`
(lines 78–110): fold the time-of-impact query results (one `Option` per
interfering body, in query order) starting from `min_toi = 1`,
`toi_found = false`; a result `t ≤ min_toi` sets the found flag, and updates
`min_toi` only when `t > ε` or zero TOIs are accepted. -/
def minToiFold (eps : ℚ) (acceptZero : Bool) (tois : List (Option ℚ)) : ℚ × Bool :=
  tois.foldl
    (fun acc t? =>
      match t? with
      | some t =>
          if t ≤ acc.1 then (if t > eps || acceptZero then t else acc.1, true)
          else acc
      | none => acc)
    (1, false)

/-- The per-registered-body step of `TranslationalCCDMotionClamping::update`
(lines 63–133).  Inputs: the machine epsilon `eps`, the TOI query results
`tois` against the bodies whose AABB overlaps the swept AABB (the collision
world, shapes and AABBs are external collaborators), the stored `CCDBody`
record `o`, and the body's current translation `pos`.  Returns the updated
record, the body's (possibly rewound) translation, and whether the broad
phase must be notified.  When the squared movement exceeds the squared
threshold the clamping steps run and may rewind the translation by
`-movement * (1 - min_toi)`; the `last_pos` write (line 132) sits outside
that branch and runs for every registered body. -/
def updateCCDBody (eps : ℚ) (tois : List (Option ℚ)) (o : CCDBody) (pos : ℚ × ℚ) :
    CCDBody × (ℚ × ℚ) × Bool :=
  let movement := subV pos o.lastPos
  if sqnormV movement > o.sqthreshold then
    let found := minToiFold eps o.acceptZero tois
    let newPos := if found.2 then addV pos (smulV (1 - found.1) (subV (0, 0) movement)) else pos
    let newAccept := if found.2 then false else true
    ({ o with lastPos := newPos, acceptZero := newAccept }, newPos, true)
  else
    ({ o with lastPos := pos }, pos, false)

/-
## Basic lemmas on the body model
-/

@[simp]
theorem setIndex_state (b : RigidBody) (i : ℤ) : (b.setIndex i).state = b.state := rfl

@[simp]
theorem setIndex_threshold (b : RigidBody) (i : ℤ) : (b.setIndex i).threshold = b.threshold := rfl

@[simp]
theorem setIndex_canMove (b : RigidBody) (i : ℤ) : (b.setIndex i).canMove = b.canMove := rfl

@[simp]
theorem setIndex_uid (b : RigidBody) (i : ℤ) : (b.setIndex i).uid = b.uid := rfl

@[simp]
theorem setIndex_index (b : RigidBody) (i : ℤ) : (b.setIndex i).index = i := rfl

@[simp]
theorem activate_state (b : RigidBody) (e : ℚ) : (b.activate e).state = .Active e := rfl

@[simp]
theorem activate_threshold (b : RigidBody) (e : ℚ) : (b.activate e).threshold = b.threshold := rfl

@[simp]
theorem isActive_of_state_active {b : RigidBody} {e : ℚ} (h : b.state = .Active e) :
    b.isActive = true := by
  unfold RigidBody.isActive
  rw [h]

/-- Example body: active with energy 100, threshold 1, unit diagonal linear
velocity. -/
def bEx : RigidBody :=
  { uid := 0, canMove := true, state := .Active 100, threshold := some 1,
    linVel := (1, 1), angVel := (0, 0), index := 0, pos := (0, 0), rot := 0 }

/-- Example body without a deactivation threshold. -/
def bNone : RigidBody :=
  { uid := 1, canMove := true, state := .Active 100, threshold := none,
    linVel := (1, 1), angVel := (0, 0), index := 0, pos := (0, 0), rot := 0 }

/-- Reduction of `update_energy` on a body with a threshold. -/
theorem updateEnergy_some {b : RigidBody} {t : ℚ} (h : b.threshold = some t) (m : ℚ) :
    updateEnergy m b =
      b.activate (min ((1 - m) * b.state.energy + m * (sqnormV b.linVel + sqnormV b.angVel))
        (t * 4)) := by
  unfold updateEnergy
  rw [h]

/-- Reduction of `update_energy` on a body without a threshold. -/
theorem updateEnergy_none {b : RigidBody} (h : b.threshold = none) (m : ℚ) :
    updateEnergy m b = b := by
  unfold updateEnergy
  rw [h]

/-- C1: `update_energy` sets the energy of an active body with threshold `τ`
to `min((1 − m)·energy + m·(‖v_lin‖² + ‖v_ang‖²), 4τ)`; consequently after
the energy-update loop no body with a threshold is `Active` with energy
above `4τ`; and a body without a threshold is left unchanged by
`update_energy`. -/
theorem update_energy_clamped :
    (∀ m b threshold, b.threshold = some threshold → b.isActive = true →
      (updateEnergy m b).state =
        .Active (min ((1 - m) * b.energy + m * (sqnormV b.linVel + sqnormV b.angVel))
          (4 * threshold)) ∧
      (updateEnergy m b).energy ≤ 4 * threshold) ∧
    (∀ m b, b.threshold = none → updateEnergy m b = b) ∧
    (∀ m k bodies b' threshold e, b' ∈ energyPhase m k bodies →
      b'.threshold = some threshold → b'.state = .Active e → e ≤ 4 * threshold) := by
  refine ⟨?_, ?_, ?_⟩
  · intro m b threshold hthr _
    rw [updateEnergy_some hthr m, mul_comm threshold 4]
    exact ⟨rfl, min_le_right _ _⟩
  · intro m b hthr
    exact updateEnergy_none hthr m
  · intro m k bodies
    induction bodies generalizing k with
    | nil => intro b' threshold e hmem; simp [energyPhase] at hmem
    | cons b bs ih =>
      intro b' threshold e hmem hthr hst
      rw [energyPhase, List.mem_cons] at hmem
      rcases hmem with hmem | hmem
      · subst hmem
        unfold stepEnergy at hthr hst
        by_cases hact : b.isActive
        · rw [if_pos hact] at hthr hst
          cases hbthr : b.threshold with
          | none =>
            rw [updateEnergy_none hbthr] at hthr
            rw [setIndex_threshold, hbthr] at hthr
            exact absurd hthr (by simp)
          | some t0 =>
            rw [updateEnergy_some hbthr] at hthr hst
            rw [setIndex_threshold, activate_threshold, hbthr] at hthr
            rw [setIndex_state, activate_state] at hst
            cases hthr
            cases hst
            calc min ((1 - m) * b.state.energy + m * (sqnormV b.linVel + sqnormV b.angVel))
                  (threshold * 4) ≤ threshold * 4 := min_le_right _ _
              _ = 4 * threshold := mul_comm _ _
        · rw [if_neg hact] at hst
          rw [setIndex_state] at hst
          exact absurd (isActive_of_state_active hst) hact
      · exact ih (k + 1) b' threshold e hmem hthr hst

/-- C1 witness: the first conjunct at `bEx` (mix factor ½, threshold 1), the
second at `bNone`, the third on the singleton list `[bEx]`. -/
theorem update_energy_clamped_witness :
    ((updateEnergy (1/2) bEx).state =
        .Active (min ((1 - 1/2) * bEx.energy + (1/2) * (sqnormV bEx.linVel + sqnormV bEx.angVel))
          (4 * 1)) ∧
      (updateEnergy (1/2) bEx).energy ≤ 4 * 1) ∧
    updateEnergy (1/2) bNone = bNone ∧
    min ((1 - 1/2) * bEx.state.energy + (1/2) * (sqnormV bEx.linVel + sqnormV bEx.angVel))
      (1 * 4) ≤ 4 * 1 :=
  ⟨update_energy_clamped.1 (1/2) bEx 1 rfl rfl,
   update_energy_clamped.2.1 (1/2) bNone rfl,
   update_energy_clamped.2.2 (1/2) 0 [bEx] (stepEnergy (1/2) 0 bEx) 1
     (min ((1 - 1/2) * bEx.state.energy + (1/2) * (sqnormV bEx.linVel + sqnormV bEx.angVel))
       (1 * 4))
     (by simp [energyPhase]) rfl rfl⟩

/-- C9: the mix-factor assertion of `ActivationManager::new` only checks
`mix_factor >= 0`: the out-of-range mix factor `2` is accepted at
construction (no panic), contradicting the claimed rejection of every value
outside `[0, 1]` (and the assertion's own message), while a negative mix
factor is indeed rejected. -/
theorem activation_manager_new_accepts_mix_factor_two :
    (ActivationManager.new 2).isSome = true ∧
    (ActivationManager.new (-1)).isSome = false ∧
    ¬((2 : ℚ) ≤ 1) := by
  refine ⟨?_, ?_, by norm_num⟩
  · rw [ActivationManager.new, if_pos (by norm_num)]; rfl
  · rw [ActivationManager.new, if_neg (by norm_num)]; rfl

/-- C8: `Solver::solve` on an empty constraint slice is a no-op: the guard
`constraints.len() != 0` skips the whole pipeline, so no body's velocity,
index or transform changes (the heap is untouched) and the impulse cache is
not swapped (both generations keep their contents) — for every
instantiation of the `do_solve` core. -/
theorem solve_empty_constraints_noop :
    ∀ (doSolve : ℚ → List Constraint → List ℕ → List ℕ → SolveSt → SolveSt)
      (dt : ℚ) (st : SolveSt),
      solverSolve doSolve dt [] st = st ∧
      (solverSolve doSolve dt [] st).heap = st.heap ∧
      (solverSolve doSolve dt [] st).cache.cur = st.cache.cur ∧
      (solverSolve doSolve dt [] st).cache.prev = st.cache.prev :=
  fun _ _ _ => ⟨rfl, rfl, rfl, rfl⟩

/-- Example CCD registration record: motion threshold 2 (squared: 4), last
observed translation at the origin. -/
def ccdEx : CCDBody := { sqthreshold := 4, lastPos := (0, 0), acceptZero := true }

/-- C7 counterexample: a registered body that moved to `(1, 0)` — below the
motion threshold `2` — skips the clamping steps, yet its stored `last_pos`
is still rewritten to the new translation `(1, 0)` (line 132 sits outside
the threshold branch), contradicting the claim that `last_pos` is left
unchanged for an under-threshold body. -/
theorem ccd_under_threshold_rewrites_lastpos :
    ¬(sqnormV (subV (1, 0) ccdEx.lastPos) > ccdEx.sqthreshold) ∧
    (updateCCDBody (1/1000000) [] ccdEx (1, 0)).1.lastPos = (1, 0) ∧
    (updateCCDBody (1/1000000) [] ccdEx (1, 0)).1.lastPos ≠ ccdEx.lastPos := by
  refine ⟨by norm_num [sqnormV, subV, ccdEx], ?_, ?_⟩
  · rw [updateCCDBody, if_neg (by norm_num [sqnormV, subV, ccdEx])]
  · rw [updateCCDBody, if_neg (by norm_num [sqnormV, subV, ccdEx])]
    simp [ccdEx]

/-- C7 (amended): the clamping steps (swept AABB, TOI queries, rewind,
`accept_zero` update, broad-phase notification) run only when
`‖movement‖² > threshold²`; for an under-threshold body the update changes
nothing except `last_pos`, which is unconditionally rewritten to the body's
current translation (step 8 runs for every registered body, not only in the
over-threshold branch). -/
theorem ccd_under_threshold_no_clamping (eps : ℚ) (tois : List (Option ℚ))
    (o : CCDBody) (pos : ℚ × ℚ)
    (h : ¬(sqnormV (subV pos o.lastPos) > o.sqthreshold)) :
    updateCCDBody eps tois o pos = ({ o with lastPos := pos }, pos, false) := by
  rw [updateCCDBody, if_neg h]

/-- C7 witness: the amended statement at the counterexample input. -/
theorem ccd_under_threshold_no_clamping_witness :
    ¬(sqnormV (subV (1, 0) ccdEx.lastPos) > ccdEx.sqthreshold) ∧
    updateCCDBody (1/1000000) [] ccdEx (1, 0) = ({ ccdEx with lastPos := (1, 0) }, (1, 0), false) :=
  ⟨by norm_num [sqnormV, subV, ccdEx],
   ccd_under_threshold_no_clamping (1/1000000) [] ccdEx (1, 0)
     (by norm_num [sqnormV, subV, ccdEx])⟩

/-
## Joint-manager theorems
-/

/-- Example rigid body stored at heap address `u`. -/
def hBody (u : ℕ) : RigidBody :=
  { uid := u, canMove := true, state := .Active 1, threshold := some 1,
    linVel := (0, 0), angVel := (0, 0), index := 0, pos := (0, 0), rot := 0 }

/-- Example heap holding two movable active bodies at addresses 1 and 2. -/
def exHeap : Heap :=
  fun u => if u = 1 then some (hBody 1) else if u = 2 then some (hBody 2) else none

/-- Example ball-in-socket joint (address 10) attaching bodies 1 and 2. -/
def jEx : BallInSocket :=
  { uid := 10, upToDate := true,
    anchor1 := { body := some 1, position := (0, 0) },
    anchor2 := { body := some 2, position := (0, 0) } }

/-- Joint-manager state holding `jEx` in the joint table and in both bodies'
reverse lists. -/
def stC2 : JMState :=
  { joints := [(10, .BallInSocketC jEx)],
    body2joints := [(1, [.BallInSocketC jEx]), (2, [.BallInSocketC jEx])],
    toActivate := [] }

/-- C2: `JointManager::remove(body 1)` on `stC2` deletes body 1's
reverse-index entry and prunes body 2's reverse list, but never removes the
joint from the joint table: the joint `jEx` attached to body 1 is still
there, and a subsequent `interferences()` still emits it — contradicting the
claim (and the function's own documentation). -/
theorem remove_by_body_keeps_joint_table :
    removeBodyJM exHeap 1 stC2 =
      some { joints := [(10, .BallInSocketC jEx)], body2joints := [(2, [])], toActivate := [] } ∧
    interferences
      { joints := [(10, .BallInSocketC jEx)], body2joints := [(2, [])], toActivate := [] } =
      [.BallInSocketC jEx] :=
  ⟨rfl, rfl⟩

/-- The empty joint-manager state. -/
def stEmpty : JMState := { joints := [], body2joints := [], toActivate := [] }

/-- C3 counterexample: adding `jEx` to the empty manager and immediately
removing it through `remove_ball_in_socket` does restore the joint table,
but both reverse lists keep their entry referring to `jEx` (dangling): the
reverse index is not restored to its pre-add state. -/
theorem add_then_remove_ball_in_socket_dangles :
    (removeBallInSocket exHeap jEx (addBallInSocket exHeap jEx stEmpty)).joints = [] ∧
    (removeBallInSocket exHeap jEx (addBallInSocket exHeap jEx stEmpty)).body2joints =
      [(1, [.BallInSocketC jEx]), (2, [.BallInSocketC jEx])] ∧
    (removeBallInSocket exHeap jEx (addBallInSocket exHeap jEx stEmpty)).body2joints ≠
      stEmpty.body2joints :=
  ⟨rfl, rfl, by decide⟩

/-- The per-anchor add work never touches the joint table. -/
theorem anchorAdd_joints (h : Heap) (c : Constraint) (body : Option ℕ) (st : JMState) :
    (anchorAdd h c body st).joints = st.joints := by
  cases body <;> rfl

/-- `remove_ball_in_socket` never touches the reverse index. -/
theorem removeBallInSocket_body2joints (h : Heap) (j : BallInSocket) (st : JMState) :
    (removeBallInSocket h j st).body2joints = st.body2joints := by
  rcases hb : (alRemove j.uid st.joints).2 <;> simp [removeBallInSocket, hb]

/-- `add_ball_in_socket` on a fresh key appends the joint to the table. -/
theorem addBallInSocket_joints_of_fresh (h : Heap) (j : BallInSocket) (st : JMState)
    (hnew : st.joints.find? (fun p => p.1 = j.uid) = none) :
    (addBallInSocket h j st).joints = st.joints ++ [(j.uid, .BallInSocketC j)] := by
  have hins : alInsert j.uid (.BallInSocketC j) st.joints =
      (st.joints ++ [(j.uid, .BallInSocketC j)], true) := by
    simp [alInsert, hnew]
  simp [addBallInSocket, hins, anchorAdd_joints]

/-- C3 (amended): `add_ball_in_socket(j)` followed by
`remove_ball_in_socket(j)` (on a manager not already holding `j`) restores
the joint table, but leaves the body → joints reverse index exactly as the
add left it: the entries referring to `j` pushed by the add remain
(`remove_ball_in_socket` does not touch the reverse index; only the generic
`remove_joint` does). -/
theorem add_remove_ball_in_socket_reverse_index (h : Heap) (st : JMState) (j : BallInSocket)
    (hnew : st.joints.find? (fun p => p.1 = j.uid) = none) :
    (removeBallInSocket h j (addBallInSocket h j st)).joints = st.joints ∧
    (removeBallInSocket h j (addBallInSocket h j st)).body2joints =
      (addBallInSocket h j st).body2joints := by
  have hfresh : ∀ p ∈ st.joints, ¬(p.1 = j.uid) := by
    intro p hp
    have := List.find?_eq_none.mp hnew p hp
    simpa using this
  have hadd := addBallInSocket_joints_of_fresh h j st hnew
  refine ⟨?_, removeBallInSocket_body2joints h j _⟩
  have hfound : ((addBallInSocket h j st).joints.find? (fun p => p.1 = j.uid)).isSome = true := by
    rw [hadd]
    rw [List.find?_isSome]
    exact ⟨(j.uid, .BallInSocketC j), by simp⟩
  have hfilter : (addBallInSocket h j st).joints.filter (fun p => p.1 ≠ j.uid) = st.joints := by
    rw [hadd, List.filter_append]
    have h1 : st.joints.filter (fun p => p.1 ≠ j.uid) = st.joints := by
      rw [List.filter_eq_self]
      intro p hp
      simpa using hfresh p hp
    have h2 : [(j.uid, Constraint.BallInSocketC j)].filter (fun p => p.1 ≠ j.uid) = [] := by
      simp
    rw [h1, h2, List.append_nil]
  have hrem : alRemove j.uid (addBallInSocket h j st).joints = (st.joints, true) := by
    rw [alRemove, hfilter, hfound]
  rcases hb2 : j.anchor2.body <;> rcases hb1 : j.anchor1.body <;>
    simp [removeBallInSocket, hrem, hb1, hb2]

/-- C3 witness: the amended statement at the counterexample input. -/
theorem add_remove_ball_in_socket_reverse_index_witness :
    (removeBallInSocket exHeap jEx (addBallInSocket exHeap jEx stEmpty)).joints =
      stEmpty.joints ∧
    (removeBallInSocket exHeap jEx (addBallInSocket exHeap jEx stEmpty)).body2joints =
      (addBallInSocket exHeap jEx stEmpty).body2joints :=
  add_remove_ball_in_socket_reverse_index exHeap stEmpty jEx rfl

/-- Among entries whose keys are pairwise distinct, the entry `find?` locates
for a key is the only one carrying that key. -/
theorem find?_key_unique {α : Type} {l : List (ℕ × α)} {k : ℕ} {q : ℕ × α}
    (hnd : (l.map Prod.fst).Nodup) (hq : l.find? (fun p => p.1 = k) = some q) :
    ∀ p ∈ l, p.1 = k → p = q := by
  induction l with
  | nil => simp at hq
  | cons a l ih =>
    rw [List.map_cons, List.nodup_cons] at hnd
    intro p hp hpk
    by_cases hak : a.1 = k
    · rw [List.find?_cons_of_pos _ (by simpa using hak)] at hq
      cases hq
      rcases List.mem_cons.mp hp with hpa | hpl
      · exact hpa
      · exfalso
        apply hnd.1
        have hm : p.1 ∈ List.map Prod.fst l := List.mem_map.mpr ⟨p, hpl, rfl⟩
        rwa [hpk, ← hak] at hm
    · rw [List.find?_cons_of_neg _ (by simpa using hak)] at hq
      rcases List.mem_cons.mp hp with hpa | hpl
      · exact absurd (by rw [← hpa]; exact hpk) hak
      · exact ih hnd.2 hq p hpl hpk

/-- `HashMap::insert` of the value already stored under a present key leaves
the table unchanged (the replacement writes back the same entry). -/
theorem alInsert_present {α : Type} {l : List (ℕ × α)} {k : ℕ} {v : α}
    (hnd : (l.map Prod.fst).Nodup) (hfind : alFind k l = some v) :
    alInsert k v l = (l, false) := by
  rcases hfq : l.find? (fun p => p.1 = k) with _ | q
  · rw [alFind, hfq] at hfind
    simp at hfind
  · have hq1 : q.1 = k := by simpa using List.find?_some hfq
    have hq2 : q.2 = v := by
      rw [alFind, hfq] at hfind
      simpa using hfind
    have hmap : l.map (fun p => if p.1 = k then (k, v) else p) = l := by
      have hcong : ∀ p ∈ l, (if p.1 = k then (k, v) else p) = p := by
        intro p hp
        by_cases hpk : p.1 = k
        · rw [if_pos hpk, find?_key_unique hnd hfq p hp hpk]
          exact Prod.ext hq1.symm hq2.symm
        · rw [if_neg hpk]
      calc l.map (fun p => if p.1 = k then (k, v) else p) = l.map id :=
            List.map_congr_left hcong
        _ = l := List.map_id l
    rw [alInsert, hfq]
    simp [hmap]

/-- C10: adding a joint already present in the joint table is a no-op: the
insertion reports the key as not newly inserted, so the joint table keeps
its (identical) entry, the reverse index is untouched, and no body is
scheduled for activation — for `add_ball_in_socket` and `add_fixed` alike.
The table keys are the joints' addresses, hence pairwise distinct. -/
theorem add_joint_twice_noop (h : Heap) (st : JMState) (j : BallInSocket) (f : Fixed)
    (hnd : (st.joints.map Prod.fst).Nodup)
    (hj : alFind j.uid st.joints = some (.BallInSocketC j))
    (hf : alFind f.uid st.joints = some (.FixedC f)) :
    addBallInSocket h j st = st ∧ addFixed h f st = st := by
  constructor
  · rw [addBallInSocket, alInsert_present hnd hj]
    rfl
  · rw [addFixed, alInsert_present hnd hf]
    rfl

/-- Example fixed joint (address 11) attaching bodies 1 and 2. -/
def fEx : Fixed :=
  { uid := 11, upToDate := true,
    anchor1 := { body := some 1, position := (0, 0) },
    anchor2 := { body := some 2, position := (0, 0) } }

/-- Joint-manager state holding both `jEx` and `fEx`. -/
def stC10 : JMState :=
  { joints := [(10, .BallInSocketC jEx), (11, .FixedC fEx)],
    body2joints := [(1, [.BallInSocketC jEx, .FixedC fEx]), (2, [.BallInSocketC jEx, .FixedC fEx])],
    toActivate := [] }

/-- C10 witness: re-adding `jEx` and `fEx` to `stC10` changes nothing. -/
theorem add_joint_twice_noop_witness :
    addBallInSocket exHeap jEx stC10 = stC10 ∧ addFixed exHeap fEx stC10 = stC10 :=
  add_joint_twice_noop exHeap stC10 jEx fEx (by decide) rfl rfl

/-
## Island-construction theorems
-/

set_option maxRecDepth 8192 in
/-- Characterisation of a performed `make_union`: both handles hold a body
and both bodies can move. -/
theorem makeUnion_some_iff (h : Heap) (u1 u2 : ℕ) (e : ℕ × ℕ) :
    makeUnion h u1 u2 = some e ↔
      (e = (u1, u2) ∧ (∃ b1, h u1 = some b1 ∧ b1.canMove = true) ∧
        (∃ b2, h u2 = some b2 ∧ b2.canMove = true)) := by
  rcases h1 : h u1 with _ | b1 <;> rcases h2 : h u2 with _ | b2 <;>
    unfold makeUnion <;> rw [h1, h2]
  · simp
  · simp
  · simp
  · rcases hc1 : b1.canMove <;> rcases hc2 : b2.canMove
    · simp [hc1, hc2]
    · simp [hc1, hc2]
    · simp [hc1, hc2]
    · constructor
      · intro he
        have he2 : (u1, u2) = e := by simpa [hc1, hc2] using he
        exact ⟨he2.symm, ⟨b1, rfl, hc1⟩, ⟨b2, rfl, hc2⟩⟩
      · rintro ⟨rfl, -, -⟩
        simp [hc1, hc2]

/-- C5: during island construction the union-find sets of two bodies are
united exactly when both bodies can move and either some contact pair
between them reports a nonzero contact count this tick, or a `BallInSocket`
or `Fixed` joint of the joint table connects them with both anchor bodies
present; a world-pinned anchor (absent body) yields no edge.  The hypothesis
excludes `RBRB` entries from the joint table, the documented invariant of
the joint manager. -/
theorem island_union_edges_iff (h : Heap) (pairs : List (ℕ × ℕ × ℕ))
    (jlist : List Constraint) (u1 u2 : ℕ)
    (hnoc : ∀ c ∈ jlist, c.isRBRB = false) :
    (u1, u2) ∈ islandEdges h pairs jlist ↔
      ((∃ b1, h u1 = some b1 ∧ b1.canMove = true) ∧
       (∃ b2, h u2 = some b2 ∧ b2.canMove = true) ∧
       ((∃ n, (u1, u2, n) ∈ pairs ∧ n ≠ 0) ∨
        (∃ j : BallInSocket, Constraint.BallInSocketC j ∈ jlist ∧
          j.anchor1.body = some u1 ∧ j.anchor2.body = some u2) ∨
        (∃ f : Fixed, Constraint.FixedC f ∈ jlist ∧
          f.anchor1.body = some u1 ∧ f.anchor2.body = some u2))) := by
  constructor
  · intro hmem
    rcases List.mem_append.mp hmem with hp | hj
    · rcases List.mem_filterMap.mp hp with ⟨p, hpmem, hpeq⟩
      by_cases hn : p.2.2 ≠ 0
      · rw [if_pos hn] at hpeq
        rcases (makeUnion_some_iff h p.1 p.2.1 _).mp hpeq with ⟨hpe, hb1, hb2⟩
        have hp1 : p.1 = u1 := by rw [Prod.ext_iff] at hpe; exact hpe.1.symm
        have hp2 : p.2.1 = u2 := by rw [Prod.ext_iff] at hpe; exact hpe.2.symm
        refine ⟨hp1 ▸ hb1, hp2 ▸ hb2, Or.inl ⟨p.2.2, ?_, hn⟩⟩
        have : p = (u1, u2, p.2.2) := by
          rw [← hp1, ← hp2]
        exact this ▸ hpmem
      · rw [if_neg hn] at hpeq
        exact absurd hpeq (by simp)
    · rcases List.mem_filterMap.mp hj with ⟨c, hcmem, hceq⟩
      cases c with
      | RBRB a b cc => exact absurd (hnoc _ hcmem) (by simp [Constraint.isRBRB])
      | BallInSocketC j =>
        simp only [jointEdge] at hceq
        rcases ha1 : j.anchor1.body with _ | v1 <;> rcases ha2 : j.anchor2.body with _ | v2 <;>
          rw [ha1, ha2] at hceq
        · exact Option.noConfusion hceq
        · exact Option.noConfusion hceq
        · exact Option.noConfusion hceq
        · rcases (makeUnion_some_iff h v1 v2 _).mp hceq with ⟨hpe, hb1, hb2⟩
          have hv1 : v1 = u1 := by rw [Prod.ext_iff] at hpe; exact hpe.1.symm
          have hv2 : v2 = u2 := by rw [Prod.ext_iff] at hpe; exact hpe.2.symm
          exact ⟨hv1 ▸ hb1, hv2 ▸ hb2,
            Or.inr (Or.inl ⟨j, hcmem, hv1 ▸ ha1, hv2 ▸ ha2⟩)⟩
      | FixedC f =>
        simp only [jointEdge] at hceq
        rcases ha1 : f.anchor1.body with _ | v1 <;> rcases ha2 : f.anchor2.body with _ | v2 <;>
          rw [ha1, ha2] at hceq
        · exact Option.noConfusion hceq
        · exact Option.noConfusion hceq
        · exact Option.noConfusion hceq
        · rcases (makeUnion_some_iff h v1 v2 _).mp hceq with ⟨hpe, hb1, hb2⟩
          have hv1 : v1 = u1 := by rw [Prod.ext_iff] at hpe; exact hpe.1.symm
          have hv2 : v2 = u2 := by rw [Prod.ext_iff] at hpe; exact hpe.2.symm
          exact ⟨hv1 ▸ hb1, hv2 ▸ hb2,
            Or.inr (Or.inr ⟨f, hcmem, hv1 ▸ ha1, hv2 ▸ ha2⟩)⟩
  · rintro ⟨hb1, hb2, hcase⟩
    have hmu : makeUnion h u1 u2 = some (u1, u2) :=
      (makeUnion_some_iff h u1 u2 _).mpr ⟨rfl, hb1, hb2⟩
    rcases hcase with ⟨n, hnmem, hn⟩ | ⟨j, hjmem, ha1, ha2⟩ | ⟨f, hfmem, ha1, ha2⟩
    · refine List.mem_append_left _ (List.mem_filterMap.mpr ⟨(u1, u2, n), hnmem, ?_⟩)
      rw [if_pos hn]
      exact hmu
    · refine List.mem_append_right _ (List.mem_filterMap.mpr ⟨.BallInSocketC j, hjmem, ?_⟩)
      simp only [jointEdge]
      rw [ha1, ha2]
      exact hmu
    · refine List.mem_append_right _ (List.mem_filterMap.mpr ⟨.FixedC f, hfmem, ?_⟩)
      simp only [jointEdge]
      rw [ha1, ha2]
      exact hmu

/-- C5 witness: heap `exHeap`, one contact pair `(1, 2)` with 3 contacts and
the joint list `[jEx]`: the edge `(1, 2)` is produced. -/
theorem island_union_edges_iff_witness :
    (1, 2) ∈ islandEdges exHeap [(1, 2, 3)] [.BallInSocketC jEx] :=
  (island_union_edges_iff exHeap [(1, 2, 3)] [.BallInSocketC jEx] 1 2
    (by intro c hc; rcases List.mem_singleton.mp hc with rfl; rfl)).mpr
    ⟨⟨hBody 1, rfl, rfl⟩, ⟨hBody 2, rfl, rfl⟩, Or.inl ⟨3, List.mem_singleton.mpr rfl, by norm_num⟩⟩

/-
## Activation-manager update theorems
-/

/-- `update_energy` never changes the deactivation threshold. -/
theorem updateEnergy_threshold (m : ℚ) (b : RigidBody) :
    (updateEnergy m b).threshold = b.threshold := by
  cases h : b.threshold with
  | some t => rw [updateEnergy_some h, activate_threshold, h]
  | none =>
    rw [updateEnergy_none h]
    exact h

/-- On a body without a threshold the energy step only assigns the index. -/
theorem stepEnergy_none {b : RigidBody} (m : ℚ) (k : ℕ) (hthr : b.threshold = none) :
    stepEnergy m k b = b.setIndex (k : ℤ) := by
  simp [stepEnergy, updateEnergy_none hthr]

/-- Pointwise description of the energy-update loop. -/
theorem energyPhase_get? (m : ℚ) (bs : List RigidBody) (k i : ℕ) :
    (energyPhase m k bs).get? i = (bs.get? i).map (fun b => stepEnergy m (k + i) b) := by
  induction bs generalizing k i with
  | nil => simp [energyPhase]
  | cons b bs ih =>
    cases i with
    | zero => simp [energyPhase]
    | succ n =>
      rw [energyPhase]
      simp only [List.get?_cons_succ, ih (k + 1) n]
      have : k + 1 + n = k + (n + 1) := by omega
      rw [this]

/-- A pending activation leaves a body without a threshold unchanged. -/
theorem applyPendingActivate_none {b : RigidBody} (hthr : b.threshold = none) :
    applyPendingActivate b = b := by
  unfold applyPendingActivate
  rw [hthr]

/-- The pending-activation loop leaves entries without a threshold
unchanged. -/
theorem activatePending_get?_none {bs : List RigidBody} {i : ℕ} {b : RigidBody}
    (toA : List ℕ) (hb : bs.get? i = some b) (hthr : b.threshold = none) :
    (activatePending toA bs).get? i = some b := by
  induction toA generalizing bs with
  | nil => exact hb
  | cons u us ih =>
    rw [activatePending, List.foldl_cons]
    refine ih ?_
    rw [List.get?_map, hb]
    have hfix : (if b.uid = u then applyPendingActivate b else b) = b := by
      rw [applyPendingActivate_none hthr, ite_self]
    simp [hfix]

/-- One vote step never turns a `false` `can_deactivate` entry back to
`true`. -/
theorem voteStep_preserves_false {can : ℕ → Bool} {r : ℕ} (root : ℕ → ℕ) (i : ℕ)
    (b : RigidBody) (h : can r = false) : voteStep root i can b r = false := by
  unfold voteStep
  by_cases hr : r = root i
  · rw [if_pos hr]
    cases hb : b.threshold
    · rfl
    · rw [← hr, h]
      rfl
  · rw [if_neg hr]
    exact h

/-- The vote loop never turns a `false` `can_deactivate` entry back to
`true`. -/
theorem votePhase_preserves_false {can : ℕ → Bool} {r : ℕ} (root : ℕ → ℕ) (k : ℕ)
    (bs : List RigidBody) (h : can r = false) : votePhase root k can bs r = false := by
  induction bs generalizing k can with
  | nil => exact h
  | cons b bs ih => exact ih (k + 1) (voteStep_preserves_false root k b h)

/-- A body without a threshold forces its island root's `can_deactivate`
entry to `false`. -/
theorem votePhase_none_false {bs : List RigidBody} {i : ℕ} {b : RigidBody}
    (root : ℕ → ℕ) (k : ℕ) (can : ℕ → Bool)
    (hb : bs.get? i = some b) (hthr : b.threshold = none) :
    votePhase root k can bs (root (k + i)) = false := by
  induction bs generalizing k can i with
  | nil => simp at hb
  | cons b0 bs ih =>
    cases i with
    | zero =>
      rw [List.get?_cons_zero] at hb
      cases hb
      rw [votePhase]
      refine votePhase_preserves_false root (k + 1) bs ?_
      unfold voteStep
      simp only [Nat.add_zero]
      rw [if_pos trivial, hthr]
    | succ n =>
      rw [List.get?_cons_succ] at hb
      rw [votePhase]
      have harith : k + (n + 1) = (k + 1) + n := by omega
      rw [harith]
      exact ih (k + 1) _ hb

/-- Pointwise description of the commit loop. -/
theorem commitPhase_get? (can : ℕ → Bool) (root : ℕ → ℕ) (bs : List RigidBody) (k i : ℕ) :
    (commitPhase can root k bs).get? i = (bs.get? i).map (fun b => commitStep can root (k + i) b) := by
  induction bs generalizing k i with
  | nil => simp [commitPhase]
  | cons b bs ih =>
    cases i with
    | zero => simp [commitPhase]
    | succ n =>
      rw [commitPhase]
      simp only [List.get?_cons_succ, ih (k + 1) n]
      have : k + 1 + n = k + (n + 1) := by omega
      rw [this]

/-- An active body whose island may not deactivate is left unchanged by the
commit step. -/
theorem commitStep_active_noop {can : ℕ → Bool} {b : RigidBody} (root : ℕ → ℕ) (i : ℕ)
    (hcan : can (root i) = false) (hact : b.isActive = true) :
    commitStep can root i b = b := by
  simp [commitStep, hcan, hact]

/-- An active body's state is not `Inactive`. -/
theorem state_ne_inactive_of_isActive {b : RigidBody} (hact : b.isActive = true) :
    b.state ≠ .Inactive := by
  cases hst : b.state <;> simp [RigidBody.isActive, hst] at hact ⊢

/-- C4: a body with no deactivation threshold that is `Active` before
`ActivationManager::update` is never marked `Inactive` by the update,
whatever its energy, the pending list, and the island structure (any root
assignment): its own vote forces `can_deactivate[root] = false`, so the
commit leaves its state untouched. -/
theorem no_threshold_never_deactivated (m : ℚ) (toA : List ℕ) (root : ℕ → ℕ)
    (bodies : List RigidBody) (i : ℕ) (b : RigidBody)
    (hb : bodies.get? i = some b) (hthr : b.threshold = none) (hact : b.isActive = true) :
    ∃ b2, (amUpdate m toA root bodies).get? i = some b2 ∧
      b2.state = b.state ∧ b2.state ≠ .Inactive := by
  have h1 : (energyPhase m 0 bodies).get? i = some (b.setIndex (i : ℤ)) := by
    rw [energyPhase_get? m bodies 0 i, hb]
    simp [stepEnergy_none m i hthr]
  have hthr2 : (b.setIndex (i : ℤ)).threshold = none := by
    rw [setIndex_threshold]
    exact hthr
  have h2 : (activatePending toA (energyPhase m 0 bodies)).get? i = some (b.setIndex (i : ℤ)) :=
    activatePending_get?_none toA h1 hthr2
  have hcan : votePhase root 0 (fun _ => true) (activatePending toA (energyPhase m 0 bodies))
      (root i) = false := by
    have := votePhase_none_false root 0 (fun _ => true) h2 hthr2
    simpa using this
  have hact2 : (b.setIndex (i : ℤ)).isActive = true := by
    unfold RigidBody.isActive
    rw [setIndex_state]
    unfold RigidBody.isActive at hact
    exact hact
  refine ⟨b.setIndex (i : ℤ), ?_, setIndex_state b i, ?_⟩
  · rw [amUpdate]
    rw [commitPhase_get?, h2]
    rw [Option.map_some']
    rw [commitStep_active_noop root (0 + i) (by simpa using hcan) hact2]
  · rw [setIndex_state]
    exact state_ne_inactive_of_isActive hact

/-- C4 witness: the singleton world `[bNone]` (movable, active, no
threshold) with the identity root assignment. -/
theorem no_threshold_never_deactivated_witness :
    ∃ b2, (amUpdate (1/2) [] (fun r => r) [bNone]).get? 0 = some b2 ∧
      b2.state = bNone.state ∧ b2.state ≠ .Inactive :=
  no_threshold_never_deactivated (1/2) [] (fun r => r) [bNone] 0 bNone rfl rfl rfl

/-
## Solver body-indexing theorems
-/

/-- Position of the first occurrence of `u` in a list. -/
def posOf (u : ℕ) : List ℕ → ℕ
  | [] => 0
  | v :: vs => if v = u then 0 else posOf u vs + 1

theorem posOf_lt_length {u : ℕ} {l : List ℕ} (h : u ∈ l) : posOf u l < l.length := by
  induction l with
  | nil => simp at h
  | cons v vs ih =>
    rw [posOf]
    by_cases hv : v = u
    · rw [if_pos hv]
      simp
    · rw [if_neg hv]
      have hm : u ∈ vs := by
        rcases List.mem_cons.mp h with h1 | h1
        · exact absurd h1.symm hv
        · exact h1
      simpa [Nat.succ_lt_succ_iff] using ih hm

theorem posOf_append_left {u : ℕ} {l : List ℕ} (h : u ∈ l) (l2 : List ℕ) :
    posOf u (l ++ l2) = posOf u l := by
  induction l with
  | nil => simp at h
  | cons v vs ih =>
    rw [List.cons_append, posOf, posOf]
    by_cases hv : v = u
    · rw [if_pos hv, if_pos hv]
    · rw [if_neg hv, if_neg hv]
      have hm : u ∈ vs := by
        rcases List.mem_cons.mp h with h1 | h1
        · exact absurd h1.symm hv
        · exact h1
      rw [ih hm]

theorem posOf_append_self {u : ℕ} {l : List ℕ} (h : u ∉ l) :
    posOf u (l ++ [u]) = l.length := by
  induction l with
  | nil => simp [posOf]
  | cons v vs ih =>
    rw [List.cons_append, posOf]
    have hv : ¬(v = u) := fun he => h (he ▸ List.mem_cons_self v vs)
    rw [if_neg hv, ih (fun hm => h (List.mem_cons_of_mem v hm))]
    rfl

/-- Bodies written by the first indexing pass keep index `-2` to its end. -/
theorem firstPassList_keeps_minus2 {L : List ℕ} {h : Heap} {u : ℕ}
    (hprev : ∀ b, h u = some b → b.index = -2) :
    ∀ b, firstPassList L h u = some b → b.index = -2 := by
  induction L generalizing h with
  | nil => exact hprev
  | cons v vs ih =>
    rw [firstPassList]
    refine ih ?_
    intro b hb
    unfold hSetIndex at hb
    by_cases huv : u = v
    · rw [if_pos huv] at hb
      rcases hu0 : h u with _ | b0
      · rw [hu0] at hb
        exact Option.noConfusion hb
      · rw [hu0] at hb
        have : b0.setIndex (-2) = b := Option.some_inj.mp hb
        rw [← this]
        rfl
    · rw [if_neg huv] at hb
      exact hprev b hb

/-- After the first indexing pass every mentioned body has index `-2`. -/
theorem firstPassList_mem_index {L : List ℕ} {h : Heap} {u : ℕ} (hu : u ∈ L) :
    ∀ b, firstPassList L h u = some b → b.index = -2 := by
  induction L generalizing h with
  | nil => simp at hu
  | cons v vs ih =>
    rw [firstPassList]
    by_cases huv : u = v
    · refine firstPassList_keeps_minus2 ?_
      intro b hb
      unfold hSetIndex at hb
      rw [if_pos huv] at hb
      rcases hu0 : h u with _ | b0
      · rw [hu0] at hb
        exact Option.noConfusion hb
      · rw [hu0] at hb
        have : b0.setIndex (-2) = b := Option.some_inj.mp hb
        rw [← this]
        rfl
    · have hm : u ∈ vs := by
        rcases List.mem_cons.mp hu with h1 | h1
        · exact absurd h1 huv
        · exact h1
      exact ih hm

/-- The invariant carried by the second indexing pass: `M` is the full
mention list, `P` the processed part.  The counter equals the dense list's
length; the dense list has no duplicates; its members are processed movable
bodies indexed by their position; processed bodies are either in the dense
list (movable) or carry `-1` (immovable); unprocessed mentioned bodies still
carry `-2`. -/
def IndexInv (M P : List ℕ) (s : IndexState) : Prop :=
  s.nextId = (s.bodies.length : ℤ) ∧
  s.bodies.Nodup ∧
  (∀ u ∈ s.bodies, u ∈ P ∧ ∃ b, s.heap u = some b ∧ b.canMove = true ∧
      b.index = (posOf u s.bodies : ℤ)) ∧
  (∀ u ∈ P, ∀ b, s.heap u = some b →
      (b.canMove = true → u ∈ s.bodies) ∧ (b.canMove = false → b.index = -1)) ∧
  (∀ u ∈ M, u ∉ P → ∀ b, s.heap u = some b → b.index = -2)

/-- One `set_body_index` call preserves the indexing invariant, extending
the processed list by the visited body. -/
theorem setBodyIndex_inv {M P : List ℕ} {s : IndexState} {u : ℕ}
    (hu : u ∈ M) (hinv : IndexInv M P s) : IndexInv M (P ++ [u]) (setBodyIndex u s) := by
  obtain ⟨I1, I2, I3, I4, I5⟩ := hinv
  unfold setBodyIndex
  rcases hh : s.heap u with _ | b
  · refine ⟨I1, I2, ?_, ?_, ?_⟩
    · intro v hv
      obtain ⟨hvP, hrest⟩ := I3 v hv
      exact ⟨List.mem_append_left _ hvP, hrest⟩
    · intro v hv b2 hb2
      rcases List.mem_append.mp hv with hvP | hvu
      · exact I4 v hvP b2 hb2
      · have hveq : v = u := List.mem_singleton.mp hvu
        rw [hveq, hh] at hb2
        exact Option.noConfusion hb2
    · intro v hvM hvnot b2 hb2
      exact I5 v hvM (fun hin => hvnot (List.mem_append_left _ hin)) b2 hb2
  · show IndexInv M (P ++ [u])
      (if b.index = -2 then
        if b.canMove then
          { heap := hSetIndex u s.nextId s.heap,
            bodies := s.bodies ++ [u],
            nextId := s.nextId + 1 }
        else { s with heap := hSetIndex u (-1) s.heap }
      else s)
    by_cases hidx : b.index = -2
    · by_cases hcm : b.canMove = true
      · rw [if_pos hidx, if_pos hcm]
        have hub : u ∉ s.bodies := by
          intro hmem
          obtain ⟨-, b', hb', -, hidx'⟩ := I3 u hmem
          rw [hh] at hb'
          rw [← Option.some_inj.mp hb'] at hidx'
          rw [hidx] at hidx'
          omega
        have huP : u ∉ P := fun hP => hub ((I4 u hP b hh).1 hcm)
        refine ⟨?_, ?_, ?_, ?_, ?_⟩
        · show s.nextId + 1 = ((s.bodies ++ [u]).length : ℤ)
          rw [List.length_append, List.length_singleton, I1]
          push_cast
          ring
        · show (s.bodies ++ [u]).Nodup
          rw [List.nodup_append]
          refine ⟨I2, List.nodup_singleton u, ?_⟩
          intro a ha hau
          rw [List.mem_singleton.mp hau] at ha
          exact hub ha
        · intro v hv
          rcases List.mem_append.mp hv with hvb | hvu
          · obtain ⟨hvP, b', hb', hcm', hidx'⟩ := I3 v hvb
            have hvu2 : ¬(v = u) := fun he => hub (he ▸ hvb)
            refine ⟨List.mem_append_left _ hvP, b', ?_, hcm', ?_⟩
            · show hSetIndex u s.nextId s.heap v = some b'
              unfold hSetIndex
              rw [if_neg hvu2]
              exact hb'
            · rw [posOf_append_left hvb [u]]
              exact hidx'
          · have hveq : v = u := List.mem_singleton.mp hvu
            subst hveq
            refine ⟨List.mem_append_right _ (List.mem_singleton.mpr rfl),
              b.setIndex s.nextId, ?_, ?_, ?_⟩
            · show hSetIndex v s.nextId s.heap v = some (b.setIndex s.nextId)
              unfold hSetIndex
              rw [if_pos rfl, hh]
              rfl
            · rw [setIndex_canMove]
              exact hcm
            · rw [setIndex_index, posOf_append_self hub]
              exact I1
        · intro v hv b2 hb2
          rcases List.mem_append.mp hv with hvP | hvu
          · have hvu2 : ¬(v = u) := fun he => huP (he ▸ hvP)
            have hb2' : s.heap v = some b2 := by
              have hb2x : (if v = u then
                  Option.map (fun b0 => RigidBody.setIndex s.nextId b0) (s.heap v)
                else s.heap v) = some b2 := hb2
              rw [if_neg hvu2] at hb2x
              exact hb2x
            obtain ⟨hA, hB⟩ := I4 v hvP b2 hb2'
            exact ⟨fun hc => List.mem_append_left _ (hA hc), hB⟩
          · have hveq : v = u := List.mem_singleton.mp hvu
            subst hveq
            have hb2' : b2 = b.setIndex s.nextId := by
              have hb2x : (if v = v then
                  Option.map (fun b0 => RigidBody.setIndex s.nextId b0) (s.heap v)
                else s.heap v) = some b2 := hb2
              rw [if_pos rfl, hh, Option.map_some'] at hb2x
              exact (Option.some_inj.mp hb2x).symm
            constructor
            · intro _
              exact List.mem_append_right _ (List.mem_singleton.mpr rfl)
            · intro hcf
              rw [hb2', setIndex_canMove, hcm] at hcf
              exact Bool.noConfusion hcf
        · intro v hvM hvnot b2 hb2
          have hvu2 : ¬(v = u) :=
            fun he => hvnot (he ▸ List.mem_append_right _ (List.mem_singleton.mpr rfl))
          have hvP : v ∉ P := fun hin => hvnot (List.mem_append_left _ hin)
          have hb2' : s.heap v = some b2 := by
            have hb2x : (if v = u then
                Option.map (fun b0 => RigidBody.setIndex s.nextId b0) (s.heap v)
              else s.heap v) = some b2 := hb2
            rw [if_neg hvu2] at hb2x
            exact hb2x
          exact I5 v hvM hvP b2 hb2'
      · rw [if_pos hidx, if_neg hcm]
        have hcmf : b.canMove = false := by
          revert hcm
          cases b.canMove <;> simp
        have hub : u ∉ s.bodies := by
          intro hmem
          obtain ⟨-, b', hb', hcm', -⟩ := I3 u hmem
          rw [hh] at hb'
          rw [← Option.some_inj.mp hb'] at hcm'
          exact hcm hcm'
        have huP : u ∉ P := by
          intro hP
          have h1 := (I4 u hP b hh).2 hcmf
          rw [hidx] at h1
          exact absurd h1 (by decide)
        refine ⟨I1, I2, ?_, ?_, ?_⟩
        · intro v hv
          obtain ⟨hvP, b', hb', hcm', hidx'⟩ := I3 v hv
          have hvu2 : ¬(v = u) := fun he => hub (he ▸ hv)
          refine ⟨List.mem_append_left _ hvP, b', ?_, hcm', hidx'⟩
          show hSetIndex u (-1) s.heap v = some b'
          unfold hSetIndex
          rw [if_neg hvu2]
          exact hb'
        · intro v hv b2 hb2
          rcases List.mem_append.mp hv with hvP | hvu
          · have hvu2 : ¬(v = u) := fun he => huP (he ▸ hvP)
            have hb2' : s.heap v = some b2 := by
              have hb2x : (if v = u then
                  Option.map (fun b0 => RigidBody.setIndex (-1) b0) (s.heap v)
                else s.heap v) = some b2 := hb2
              rw [if_neg hvu2] at hb2x
              exact hb2x
            exact I4 v hvP b2 hb2'
          · have hveq : v = u := List.mem_singleton.mp hvu
            subst hveq
            have hb2' : b2 = b.setIndex (-1) := by
              have hb2x : (if v = v then
                  Option.map (fun b0 => RigidBody.setIndex (-1) b0) (s.heap v)
                else s.heap v) = some b2 := hb2
              rw [if_pos rfl, hh, Option.map_some'] at hb2x
              exact (Option.some_inj.mp hb2x).symm
            constructor
            · intro hct
              rw [hb2', setIndex_canMove, hcmf] at hct
              exact Bool.noConfusion hct
            · intro _
              rw [hb2', setIndex_index]
        · intro v hvM hvnot b2 hb2
          have hvu2 : ¬(v = u) :=
            fun he => hvnot (he ▸ List.mem_append_right _ (List.mem_singleton.mpr rfl))
          have hvP : v ∉ P := fun hin => hvnot (List.mem_append_left _ hin)
          have hb2' : s.heap v = some b2 := by
            have hb2x : (if v = u then
                Option.map (fun b0 => RigidBody.setIndex (-1) b0) (s.heap v)
              else s.heap v) = some b2 := hb2
            rw [if_neg hvu2] at hb2x
            exact hb2x
          exact I5 v hvM hvP b2 hb2'
    · rw [if_neg hidx]
      by_cases huP : u ∈ P
      · refine ⟨I1, I2, ?_, ?_, ?_⟩
        · intro v hv
          obtain ⟨hvP, hrest⟩ := I3 v hv
          exact ⟨List.mem_append_left _ hvP, hrest⟩
        · intro v hv b2 hb2
          rcases List.mem_append.mp hv with hvP | hvu
          · exact I4 v hvP b2 hb2
          · have hveq : v = u := List.mem_singleton.mp hvu
            subst hveq
            exact I4 v huP b2 hb2
        · intro v hvM hvnot b2 hb2
          exact I5 v hvM (fun hin => hvnot (List.mem_append_left _ hin)) b2 hb2
      · exact absurd (I5 u hu huP b hh) hidx

/-- The second indexing pass carries the invariant from the processed part
`P` to the whole mention list. -/
theorem secondPassList_inv (M : List ℕ) : ∀ (R P : List ℕ) (s : IndexState),
    M = P ++ R → IndexInv M P s → IndexInv M M (secondPassList R s) := by
  intro R
  induction R with
  | nil =>
    intro P s hM hinv
    rw [List.append_nil] at hM
    subst hM
    exact hinv
  | cons u us ih =>
    intro P s hM hinv
    rw [secondPassList]
    refine ih (P ++ [u]) _ ?_ ?_
    · rw [hM, List.append_cons]
    · have hu : u ∈ M := by
        rw [hM]
        exact List.mem_append_right _ (List.mem_cons_self u us)
      exact setBodyIndex_inv hu hinv

/-- C6: after the two body-indexing passes of `solve`, every movable body
mentioned by some constraint carries a dense solver index in `[0, N)` where
`N` is the length of the dense body list, is recorded exactly once in that
list, every immovable mentioned body carries index `-1`, and the dense list
holds only mentioned bodies. -/
theorem solver_indexing_dense (cs : List Constraint) (h : Heap) (u : ℕ) (b : RigidBody)
    (hu : u ∈ mentionedAll cs)
    (hb : (secondPass cs (firstPass cs h)).heap u = some b) :
    (b.canMove = true →
      0 ≤ b.index ∧ b.index < ((secondPass cs (firstPass cs h)).bodies.length : ℤ) ∧
      (secondPass cs (firstPass cs h)).bodies.count u = 1) ∧
    (b.canMove = false → b.index = -1) ∧
    (∀ v ∈ (secondPass cs (firstPass cs h)).bodies, v ∈ mentionedAll cs) := by
  have hbase : IndexInv (mentionedAll cs) []
      { heap := firstPass cs h, bodies := [], nextId := 0 } := by
    refine ⟨rfl, List.nodup_nil, ?_, ?_, ?_⟩
    · intro v hv
      simp at hv
    · intro v hv
      simp at hv
    · intro v hvM _ b2 hb2
      exact firstPassList_mem_index hvM b2 hb2
  have hinv := secondPassList_inv (mentionedAll cs) (mentionedAll cs) []
    { heap := firstPass cs h, bodies := [], nextId := 0 } (by rw [List.nil_append]) hbase
  obtain ⟨-, I2, I3, I4, I5⟩ := hinv
  have hstate : secondPass cs (firstPass cs h) =
      secondPassList (mentionedAll cs) { heap := firstPass cs h, bodies := [], nextId := 0 } := rfl
  rw [hstate] at hb ⊢
  refine ⟨?_, ?_, ?_⟩
  · intro hcm
    have hmem := (I4 u hu b hb).1 hcm
    obtain ⟨-, b', hb', -, hidx⟩ := I3 u hmem
    rw [hb] at hb'
    rw [← Option.some_inj.mp hb'] at hidx
    refine ⟨?_, ?_, ?_⟩
    · rw [hidx]
      exact Int.natCast_nonneg _
    · rw [hidx]
      exact_mod_cast posOf_lt_length hmem
    · exact List.count_eq_one_of_mem I2 hmem
  · intro hcm
    exact (I4 u hu b hb).2 hcm
  · intro v hv
    exact (I3 v hv).1

/-- Example contact payload. -/
def cEx : Contact := { world1 := (0, 0), world2 := (0, 0), normal := (0, 1), depth := 0 }

/-- Example constraint slice: one contact between bodies 1 and 2. -/
def csEx : List Constraint := [.RBRB 1 2 cEx]

/-- The value stored for body 1 after the indexing passes on `csEx` over
`exHeap`. -/
def bIdx1 : RigidBody :=
  { uid := 1, canMove := true, state := .Active 1, threshold := some 1,
    linVel := (0, 0), angVel := (0, 0), index := 0, pos := (0, 0), rot := 0 }

/-- C6 witness: the single-contact slice `csEx` on `exHeap`; body 1 ends up
at dense index 0 of a two-element dense list. -/
theorem solver_indexing_dense_witness :
    (bIdx1.canMove = true →
      0 ≤ bIdx1.index ∧
      bIdx1.index < ((secondPass csEx (firstPass csEx exHeap)).bodies.length : ℤ) ∧
      (secondPass csEx (firstPass csEx exHeap)).bodies.count 1 = 1) ∧
    (bIdx1.canMove = false → bIdx1.index = -1) ∧
    (∀ v ∈ (secondPass csEx (firstPass csEx exHeap)).bodies, v ∈ mentionedAll csEx) :=
  solver_indexing_dense csEx exHeap 1 bIdx1 (by decide) rfl

end NPhys
